import Mathlib

/-!
Shallow embedding of the compound-word segmenter of `svlang`
(`src/svlang/checkers/compound.py`) and proofs about it.

Words and text are modelled as `List Char`; the Python `set[str]` dictionary
is modelled as a `List Word` whose membership relation plays the role of set
membership.  Python's `str.lower` is modelled character-wise by
`Char.toLower` (they agree on ASCII; every concrete input used below is
ASCII or already-lowercase Swedish letters, on which both are the identity).
-/

namespace Svlang

abbrev Word := List Char

/-- Character-wise lowercasing, the model of Python `str.lower()`. -/
def pyLower (w : Word) : Word := w.map Char.toLower

/-- Result record of `CompoundSplitter.split` (class `CompoundSplit`). -/
structure CompoundSplit where
  word : Word
  parts : List Word
  is_compound : Bool
deriving DecidableEq, Repr

/-- The fixed joiner alphabet `_JOINERS = ("s", "e", "o", "u", "")`. -/
def _JOINERS : List Word := [['s'], ['e'], ['o'], ['u'], []]

/-- `self._min_part_len = 2`, set in `CompoundSplitter.__init__`. -/
def _min_part_len : Nat := 2

/-- One step of the joiner handling inside `_try_split`'s inner loop:
`if joiner and remainder.startswith(joiner): rest = remainder[len(joiner):]`,
`else: if joiner: continue; rest = remainder`.  Returns `none` exactly when
the Python loop hits `continue` at that point. -/
def stripJoiner (j remainder : Word) : Option Word :=
  if j = [] then some remainder
  else if j.isPrefixOf remainder then some (remainder.drop j.length)
  else none

/-- `if best is None or len(candidate) < len(best): best = candidate`. -/
def updateBest (best : Option (List Word)) (cand : List Word) : Option (List Word) :=
  match best with
  | none => some cand
  | some b => if cand.length < b.length then some cand else some b

/-- The early-exit test `if best and len(best) == 2` (a length-2 list is
automatically truthy). -/
def hasLen2 : Option (List Word) → Bool
  | some b => b.length == 2
  | none => false

/-- Python `range(a, b, -1)`: the list `[a, a-1, ..., b+1]` (empty if `a ≤ b`). -/
def downRange (a b : Nat) : List Nat := (List.range' (b + 1) (a - b)).reverse

/-- The `for joiner in self._JOINERS` loop body of `_try_split`, for the
current viable prefix.  `recur` is the recursive call at depth+1, `best`
threads the mutable `best` variable. -/
def joinerLoop (words : List Word) (recur : Word → Option (List Word))
    (pref remainder : Word) : List Word → Option (List Word) → Option (List Word)
  | [], best => best
  | j :: js, best =>
    match stripJoiner j remainder with
    | none => joinerLoop words recur pref remainder js best
    | some rest =>
      if rest = [] then joinerLoop words recur pref remainder js best
      else if rest ∈ words then
        joinerLoop words recur pref remainder js (updateBest best [pref, rest])
      else
        match recur rest with
        | none => joinerLoop words recur pref remainder js best
        | some sub =>
          if sub = [] then joinerLoop words recur pref remainder js best
          else joinerLoop words recur pref remainder js (updateBest best (pref :: sub))

/-- The `for i in range(len(word) - self._min_part_len, self._min_part_len - 1, -1)`
loop of `_try_split`, including the pruning of non-member prefixes and the
early `return best` once a 2-part split is found. -/
def indexLoop (words : List Word) (recur : Word → Option (List Word))
    (word : Word) : List Nat → Option (List Word) → Option (List Word)
  | [], best => best
  | i :: is, best =>
    if word.take i ∈ words then
      let best2 := joinerLoop words recur (word.take i) (word.drop i) _JOINERS best
      if hasLen2 best2 then best2
      else indexLoop words recur word is best2
    else indexLoop words recur word is best

/-- Fuel formulation of `CompoundSplitter._try_split`: `tryRec words fuel w`
equals `_try_split(w, depth)` for `fuel = 6 - depth` (the Python guard
`depth > 5 → None` is the `fuel = 0` case; see `try_split_eq_tryRec`). -/
def tryRec (words : List Word) : Nat → Word → Option (List Word)
  | 0, _ => none
  | fuel + 1, word =>
    if word.length < _min_part_len * 2 then
      if word ∈ words then some [word] else none
    else
      indexLoop words (tryRec words fuel) word
        (downRange (word.length - _min_part_len) (_min_part_len - 1)) none

/-- Direct transcription of `CompoundSplitter._try_split(word, depth)`,
with the depth counter and the `if depth > 5
 return None` guard as in the source. -/
def _try_split (words : List Word) (word : Word) (depth : Nat) : Option (List Word) :=
  if h : depth > 5 then none
  else if word.length < _min_part_len * 2 then
    if word ∈ words then some [word] else none
  else
    indexLoop words (fun r => _try_split words r (depth + 1)) word
      (downRange (word.length - _min_part_len) (_min_part_len - 1)) none
termination_by 6 - depth
decreasing_by omega

/-- `CompoundSplitter.split`. -/
def split (words : List Word) (word : Word) : CompoundSplit :=
  if word.length < 2 then
    { word := word, parts := if word = [] then [] else [word], is_compound := false }
  else
    match _try_split words (pyLower word) 0 with
    | some parts =>
      if parts.length > 1 then { word := word, parts := parts, is_compound := true }
      else { word := word, parts := [word], is_compound := false }
    | none => { word := word, parts := [word], is_compound := false }

/-- `CompoundSplitter.is_valid_compound`. -/
def is_valid_compound (words : List Word) (word : Word) : Bool :=
  (split words word).is_compound

/-! ## Reconstruction predicate -/

/-- Interleave parts with joiner fragments: `glue [p₁,…,pₙ] [j₁,…,jₙ₋₁]`
is `p₁ ++ j₁ ++ p₂ ++ … ++ jₙ₋₁ ++ pₙ`. -/
def glue (ps js : List Word) : Word :=
  match ps with
  | [] => []
  | p :: rest => p ++ ((js.zip rest).map (fun q => q.1 ++ q.2)).flatten

/-- The parts reassemble `w` using one joiner fragment per boundary. -/
def Reconstructs (ps : List Word) (w : Word) : Prop :=
  ∃ js : List Word, js.length + 1 = ps.length ∧ (∀ j ∈ js, j ∈ _JOINERS) ∧ glue ps js = w

/-- Every part is a dictionary member and the parts reassemble `w`. -/
def Sound (words : List Word) (w : Word) (ps : List Word) : Prop :=
  (∀ p ∈ ps, p ∈ words) ∧ Reconstructs ps w

/-! ## Claim C9: dictionary construction -/

/-- The module-level `_BUILTIN_WORDS` fallback vocabulary, transcribed in
source order (the Python `set` literal deduplicates; list membership and set
membership agree, which is all the splitter uses). -/
def _BUILTIN_WORDS : List Word :=
  ["barn", "bil", "bok", "bord", "brev", "bro", "dag", "dator", "del",
   "djur", "dörr", "fisk", "flyg", "folk", "fot", "färg", "förening",
   "gata", "glas", "golv", "gård", "hand", "hem", "hjul", "hund", "hus",
   "hår", "jord", "katt", "klass", "klocka", "konst", "kraft", "kropp",
   "kung", "kvinna", "källa", "lag", "land", "ljus", "luft", "lägenhet",
   "man", "mat", "mark", "mor", "musik", "natt", "namn", "nyckel",
   "ord", "papper", "plats", "polis", "program", "rum", "rätt",
   "sjö", "skog", "skola", "sol", "stad", "stol", "ström", "system",
   "tak", "tid", "trafik", "trä", "vagn", "vakt", "vatten", "vin",
   "vind", "väg", "vägg", "värld", "växt", "yta", "öga", "öra",
   "bana", "bank", "butik", "fabrik", "hus", "kyrka", "plan",
   "sjukhus", "station", "torget", "tunnel",
   "boll", "brand", "bruk", "by", "båt", "flod", "flyg", "hamn",
   "hyra", "is", "järn", "krig", "kust", "köp", "leda", "mot",
   "park", "resa", "ring", "sand", "sjuk", "snö", "sång", "torg",
   "tåg", "vapen", "vård",
   "fotboll", "handboll", "ishockey", "tennis",
   "riksdag", "kommun", "ledamot", "minister", "samhälle", "stat",
   "flyg", "järnväg", "spår", "tåg", "tunnel", "buss",
   "stor", "liten", "ny", "gammal", "ung", "lång", "kort", "bred",
   "hög", "låg", "varm", "kall", "vit", "svart", "röd", "blå", "grön",
   "snabb", "sen", "fin", "ren", "fri",
   "lek", "spel", "skriv", "läs", "kör", "spring", "tänk", "sov",
   "sjung", "flytt", "bygg", "städ", "lär", "säg",
   "arm", "ben", "finger", "huvud", "mage", "rygg", "tand",
   "berg", "blad", "blomma", "eld", "frukt", "gren", "sten", "träd",
   "dörr", "fönster", "golv", "kök", "rum", "trapp", "vägg",
   "byggnad", "våning",
   "data", "fil", "kod", "nät", "webb", "server", "skärm",
   "arbets", "efter", "flyg", "folk", "fot", "före", "grupp", "halv",
   "huvud", "inne", "järn", "lands", "mellan", "mitt", "natt", "riks",
   "sam", "sjuk", "slut", "snö", "sol", "stats", "stor", "trafik",
   "tunnel", "under", "ute", "över"].map String.toList

/-- Python `str.strip()` (whitespace removed from both ends), used on
wordlist lines. -/
def pyStrip (l : Word) : Word :=
  ((l.dropWhile Char.isWhitespace).reverse.dropWhile Char.isWhitespace).reverse

/-- `CompoundSplitter._load_default_wordlist`: if the wordlist resource
exists, keep each line that is nonblank after stripping and does not start
with the comment marker, stripped and lowercased; otherwise fall back to
`_BUILTIN_WORDS`.  The file-system access (`wl_path.exists()` /
`read_text().splitlines()`) is modelled by the optional list of lines. -/
def _load_default_wordlist (resource : Option (List Word)) : List Word :=
  match resource with
  | some lines =>
    (lines.filter (fun l => !(pyStrip l).isEmpty && !(List.isPrefixOf ['#'] l))).map
      (fun l => pyLower (pyStrip l))
  | none => _BUILTIN_WORDS

/-- `CompoundSplitter.__init__`: a caller-supplied wordlist is stored as-is
(`self._words = wordlist`, no normalization); otherwise the default wordlist
is loaded. -/
def mkSplitterWords (wordlist : Option (List Word)) (resource : Option (List Word)) :
    List Word :=
  match wordlist with
  | some wl => wl
  | none => _load_default_wordlist resource

/-! ## Candidate sets and first-two-part scan (for the ranking claim) -/

/-- All candidate decompositions discoverable by one pass of the joiner loop,
with no best-tracking and no early return: mirrors `joinerLoop` but collects
every candidate instead of keeping the shortest. -/
def candsJoiner (words : List Word) (recurC : Word → List (List Word))
    (pref remainder : Word) : List Word → List (List Word)
  | [] => []
  | j :: js =>
    match stripJoiner j remainder with
    | none => candsJoiner words recurC pref remainder js
    | some rest =>
      if rest = [] then candsJoiner words recurC pref remainder js
      else if rest ∈ words then [pref, rest] :: candsJoiner words recurC pref remainder js
      else
        ((recurC rest).map (fun s => pref :: s)) ++ candsJoiner words recurC pref remainder js

/-- All candidate decompositions discoverable across the split points:
mirrors `indexLoop` without the early 2-part return. -/
def candsIdx (words : List Word) (recurC : Word → List (List Word))
    (word : Word) : List Nat → List (List Word)
  | [] => []
  | i :: is =>
    (if word.take i ∈ words then
      candsJoiner words recurC (word.take i) (word.drop i) _JOINERS
    else []) ++ candsIdx words recurC word is

/-- The set of candidate decompositions discoverable by the bounded search:
mirrors `tryRec` (same split points, joiner handling, and depth bound) but
enumerates all candidates instead of selecting one. -/
def allCands (words : List Word) : Nat → Word → List (List Word)
  | 0, _ => []
  | fuel + 1, w =>
    if w.length < _min_part_len * 2 then (if w ∈ words then [[w]] else [])
    else
      candsIdx words (allCands words fuel) w
        (downRange (w.length - _min_part_len) (_min_part_len - 1))

/-- The first direct 2-part candidate at one split point, scanning joiners in
priority order. -/
def firstTwoJoiner (words : List Word) (pref remainder : Word) :
    List Word → Option (List Word)
  | [] => none
  | j :: js =>
    match stripJoiner j remainder with
    | none => firstTwoJoiner words pref remainder js
    | some rest =>
      if rest = [] then firstTwoJoiner words pref remainder js
      else if rest ∈ words then some [pref, rest]
      else firstTwoJoiner words pref remainder js

/-- The first direct 2-part candidate, scanning split points from the longest
prefix downward and joiners in priority order at each split point. -/
def firstTwoIdx (words : List Word) (word : Word) : List Nat → Option (List Word)
  | [] => none
  | i :: is =>
    if word.take i ∈ words then
      match firstTwoJoiner words (word.take i) (word.drop i) _JOINERS with
      | some c => some c
      | none => firstTwoIdx words word is
    else firstTwoIdx words word is

/-- The 2-part decomposition the longest-prefix-first scan finds first. -/
def firstTwo (words : List Word) (w : Word) : Option (List Word) :=
  firstTwoIdx words w (downRange (w.length - _min_part_len) (_min_part_len - 1))

/-- The depth-counter transcription agrees with the fuel formulation. -/
theorem try_split_eq_tryRec (words : List Word) :
    ∀ n depth word, 6 - depth = n → _try_split words word depth = tryRec words n word := by
  intro n
  induction n with
  | zero =>
    intro depth word h
    have hd : depth > 5 := by omega
    rw [_try_split, dif_pos hd]
    rfl
  | succ m ih =>
    intro depth word h
    have hd : ¬ depth > 5 := by omega
    rw [_try_split, dif_neg hd]
    have hrec : (fun r => _try_split words r (depth + 1)) = tryRec words m := by
      funext r
      exact ih (depth + 1) r (by omega)
    rw [hrec]
    rfl

/-- `split`, rewritten through the fuel formulation (used for computation:
the well-founded `_try_split` does not reduce definitionally). -/
theorem split_eq (words : List Word) (word : Word) :
    split words word =
      if word.length < 2 then
        { word := word, parts := if word = [] then [] else [word], is_compound := false }
      else
        match tryRec words 6 (pyLower word) with
        | some parts =>
          if parts.length > 1 then { word := word, parts := parts, is_compound := true }
          else { word := word, parts := [word], is_compound := false }
        | none => { word := word, parts := [word], is_compound := false } := by
  rw [split, try_split_eq_tryRec words 6 0 (pyLower word) rfl]

theorem glue_single (p : Word) (js : List Word) : glue [p] js = p := by
  simp [glue]

theorem glue_cons (p r : Word) (rs : List Word) (j : Word) (js : List Word) :
    glue (p :: r :: rs) (j :: js) = p ++ j ++ glue (r :: rs) js := by
  simp [glue, List.append_assoc]

theorem stripJoiner_eq {j remainder rest : Word} (h : stripJoiner j remainder = some rest) :
    remainder = j ++ rest := by
  unfold stripJoiner at h
  by_cases hj : j = []
  · rw [if_pos hj] at h
    cases h
    simp [hj]
  · rw [if_neg hj] at h
    by_cases hp : j.isPrefixOf remainder
    · rw [if_pos hp] at h
      cases h
      obtain ⟨t, ht⟩ := List.isPrefixOf_iff_prefix.mp hp
      subst ht
      rw [List.drop_left]
    · rw [if_neg hp] at h
      cases h

theorem reconstructs_single (w : Word) : Reconstructs [w] w :=
  ⟨[], rfl, by simp, glue_single w []⟩

theorem Reconstructs.ne_nil {ps : List Word} {w : Word} (h : Reconstructs ps w) : ps ≠ [] := by
  obtain ⟨js, hlen, -, -⟩ := h
  intro hnil
  rw [hnil] at hlen
  simp at hlen

theorem Reconstructs.eq_single {p w : Word} (h : Reconstructs [p] w) : p = w := by
  obtain ⟨js, -, -, hglue⟩ := h
  rw [glue_single] at hglue
  exact hglue

theorem reconstructs_two {pref rest j w : Word} (hj : j ∈ _JOINERS)
    (hw : pref ++ (j ++ rest) = w) : Reconstructs [pref, rest] w := by
  refine ⟨[j], rfl, by simpa using hj, ?_⟩
  rw [glue_cons, glue_single, List.append_assoc]
  exact hw

theorem reconstructs_cons {pref j rest w : Word} {sub : List Word} (hj : j ∈ _JOINERS)
    (hsub : Reconstructs sub rest) (hw : pref ++ (j ++ rest) = w) :
    Reconstructs (pref :: sub) w := by
  obtain ⟨js, hlen, hmem, hglue⟩ := hsub
  cases sub with
  | nil => simp at hlen
  | cons s0 stl =>
    refine ⟨j :: js, by simpa using hlen, ?_, ?_⟩
    · intro x hx
      rcases List.mem_cons.mp hx with h | h
      · rw [h]; exact hj
      · exact hmem x h
    · rw [glue_cons, hglue, List.append_assoc]
      exact hw

/-! ## Step equations for the loops -/

theorem joinerLoop_nil {words : List Word} {recur : Word → Option (List Word)}
    {pref remainder : Word} {best : Option (List Word)} :
    joinerLoop words recur pref remainder [] best = best := rfl

theorem joinerLoop_cons_none {words : List Word} {recur : Word → Option (List Word)}
    {pref remainder j : Word} {js : List Word} {best : Option (List Word)}
    (h : stripJoiner j remainder = none) :
    joinerLoop words recur pref remainder (j :: js) best =
      joinerLoop words recur pref remainder js best := by
  simp [joinerLoop, h]

theorem joinerLoop_cons_some {words : List Word} {recur : Word → Option (List Word)}
    {pref remainder j rest : Word} {js : List Word} {best : Option (List Word)}
    (h : stripJoiner j remainder = some rest) :
    joinerLoop words recur pref remainder (j :: js) best =
      (if rest = [] then joinerLoop words recur pref remainder js best
      else if rest ∈ words then
        joinerLoop words recur pref remainder js (updateBest best [pref, rest])
      else
        match recur rest with
        | none => joinerLoop words recur pref remainder js best
        | some sub =>
          if sub = [] then joinerLoop words recur pref remainder js best
          else joinerLoop words recur pref remainder js (updateBest best (pref :: sub))) := by
  simp [joinerLoop, h]

theorem indexLoop_nil {words : List Word} {recur : Word → Option (List Word)}
    {word : Word} {best : Option (List Word)} :
    indexLoop words recur word [] best = best := rfl

theorem indexLoop_cons_mem {words : List Word} {recur : Word → Option (List Word)}
    {word : Word} {i : Nat} {is : List Nat} {best : Option (List Word)}
    (h : word.take i ∈ words) :
    indexLoop words recur word (i :: is) best =
      (if hasLen2 (joinerLoop words recur (word.take i) (word.drop i) _JOINERS best) then
        joinerLoop words recur (word.take i) (word.drop i) _JOINERS best
      else
        indexLoop words recur word is
          (joinerLoop words recur (word.take i) (word.drop i) _JOINERS best)) := by
  simp [indexLoop, h]

theorem indexLoop_cons_notMem {words : List Word} {recur : Word → Option (List Word)}
    {word : Word} {i : Nat} {is : List Nat} {best : Option (List Word)}
    (h : word.take i ∉ words) :
    indexLoop words recur word (i :: is) best = indexLoop words recur word is best := by
  simp [indexLoop, h]

/-! ## Facts about `updateBest` -/

theorem updateBest_eq_some {best : Option (List Word)} {cand b : List Word}
    (h : updateBest best cand = some b) : b = cand ∨ best = some b := by
  cases best with
  | none =>
    simp [updateBest] at h
    exact Or.inl h.symm
  | some b0 =>
    simp only [updateBest] at h
    by_cases hlt : cand.length < b0.length
    · rw [if_pos hlt] at h
      cases h
      exact Or.inl rfl
    · rw [if_neg hlt] at h
      cases h
      exact Or.inr rfl

theorem updateBest_isSome (best : Option (List Word)) (cand : List Word) :
    ∃ b, updateBest best cand = some b := by
  cases best with
  | none => exact ⟨cand, rfl⟩
  | some b0 =>
    simp only [updateBest]
    by_cases hlt : cand.length < b0.length
    · exact ⟨cand, if_pos hlt⟩
    · exact ⟨b0, if_neg hlt⟩

theorem updateBest_length_le_cand {best : Option (List Word)} {cand b : List Word}
    (h : updateBest best cand = some b) : b.length ≤ cand.length := by
  cases best with
  | none =>
    simp only [updateBest, Option.some.injEq] at h
    subst h
    exact le_rfl
  | some b0 =>
    simp only [updateBest] at h
    by_cases hlt : cand.length < b0.length
    · rw [if_pos hlt] at h; cases h; exact le_rfl
    · rw [if_neg hlt] at h; cases h; exact Nat.le_of_not_lt hlt

theorem updateBest_length_le_best {best : Option (List Word)} {cand b b0 : List Word}
    (hbest : best = some b0) (h : updateBest best cand = some b) : b.length ≤ b0.length := by
  subst hbest
  simp only [updateBest] at h
  by_cases hlt : cand.length < b0.length
  · rw [if_pos hlt] at h; cases h; exact Nat.le_of_lt hlt
  · rw [if_neg hlt] at h; cases h; exact le_rfl

/-! ## Soundness of the search -/

theorem joinerLoop_sound {words : List Word} {recur : Word → Option (List Word)}
    {pref remainder w : Word}
    (hrec : ∀ r ps, recur r = some ps → Sound words r ps)
    (hpref : pref ∈ words) (hsplit : pref ++ remainder = w) :
    ∀ js : List Word, (∀ j ∈ js, j ∈ _JOINERS) →
      ∀ best : Option (List Word), (∀ b, best = some b → Sound words w b) →
      ∀ b, joinerLoop words recur pref remainder js best = some b → Sound words w b := by
  intro js
  induction js with
  | nil =>
    intro hjs best hbest b hb
    rw [joinerLoop_nil] at hb
    exact hbest b hb
  | cons j js ih =>
    intro hjs best hbest b hb
    have hjmem : j ∈ _JOINERS := hjs j (List.mem_cons_self j js)
    have hjs' : ∀ x ∈ js, x ∈ _JOINERS := fun x hx => hjs x (List.mem_cons_of_mem j hx)
    cases hstrip : stripJoiner j remainder with
    | none =>
      rw [joinerLoop_cons_none hstrip] at hb
      exact ih hjs' best hbest b hb
    | some rest =>
      rw [joinerLoop_cons_some hstrip] at hb
      have hrem : remainder = j ++ rest := stripJoiner_eq hstrip
      by_cases hre : rest = []
      · rw [if_pos hre] at hb
        exact ih hjs' best hbest b hb
      · rw [if_neg hre] at hb
        by_cases hrw : rest ∈ words
        · rw [if_pos hrw] at hb
          refine ih hjs' _ ?_ b hb
          intro b' hb'
          rcases updateBest_eq_some hb' with hc | hc
          · subst hc
            constructor
            · intro p hp
              rcases List.mem_cons.mp hp with h | h
              · rw [h]; exact hpref
              · rw [List.mem_singleton.mp h]; exact hrw
            · exact reconstructs_two hjmem (by rw [← hrem]; exact hsplit)
          · exact hbest b' hc
        · rw [if_neg hrw] at hb
          cases hsub : recur rest with
          | none =>
            simp only [hsub] at hb
            exact ih hjs' best hbest b hb
          | some sub =>
            simp only [hsub] at hb
            by_cases hse : sub = []
            · rw [if_pos hse] at hb
              exact ih hjs' best hbest b hb
            · rw [if_neg hse] at hb
              refine ih hjs' _ ?_ b hb
              intro b' hb'
              rcases updateBest_eq_some hb' with hc | hc
              · subst hc
                obtain ⟨hsmem, hsrec⟩ := hrec rest sub hsub
                constructor
                · intro p hp
                  rcases List.mem_cons.mp hp with h | h
                  · rw [h]; exact hpref
                  · exact hsmem p h
                · exact reconstructs_cons hjmem hsrec (by rw [← hrem]; exact hsplit)
              · exact hbest b' hc

theorem indexLoop_sound {words : List Word} {recur : Word → Option (List Word)} {w : Word}
    (hrec : ∀ r ps, recur r = some ps → Sound words r ps) :
    ∀ idxs : List Nat, ∀ best : Option (List Word),
      (∀ b, best = some b → Sound words w b) →
      ∀ b, indexLoop words recur w idxs best = some b → Sound words w b := by
  intro idxs
  induction idxs with
  | nil =>
    intro best hbest b hb
    rw [indexLoop_nil] at hb
    exact hbest b hb
  | cons i is ih =>
    intro best hbest b hb
    by_cases hmem : w.take i ∈ words
    · rw [indexLoop_cons_mem hmem] at hb
      have hloop := joinerLoop_sound hrec hmem (List.take_append_drop i w)
        _JOINERS (fun j hj => hj) best hbest
      by_cases h2 : hasLen2 (joinerLoop words recur (w.take i) (w.drop i) _JOINERS best)
      · rw [if_pos h2] at hb
        exact hloop b hb
      · rw [if_neg h2] at hb
        exact ih _ hloop b hb
    · rw [indexLoop_cons_notMem hmem] at hb
      exact ih best hbest b hb

/-- Master soundness: any list `_try_split` (in fuel form) returns consists of
dictionary members and reassembles the input with joiners. -/
theorem tryRec_sound (words : List Word) :
    ∀ fuel w ps, tryRec words fuel w = some ps → Sound words w ps := by
  intro fuel
  induction fuel with
  | zero => intro w ps h; cases h
  | succ n ih =>
    intro w ps h
    rw [tryRec] at h
    by_cases hlen : w.length < _min_part_len * 2
    · rw [if_pos hlen] at h
      by_cases hw : w ∈ words
      · rw [if_pos hw] at h
        cases h
        exact ⟨by simpa using hw, reconstructs_single w⟩
      · rw [if_neg hw] at h
        cases h
    · rw [if_neg hlen] at h
      exact indexLoop_sound ih _ none (by intro b hb; cases hb) ps h

theorem tryRec_ne_nil {words : List Word} {fuel : Nat} {w : Word} {ps : List Word}
    (h : tryRec words fuel w = some ps) : ps ≠ [] :=
  (tryRec_sound words fuel w ps h).2.ne_nil

/-- A returned decomposition of a non-member has at least two parts. -/
theorem tryRec_notMem_length {words : List Word} {fuel : Nat} {w : Word} {ps : List Word}
    (h : tryRec words fuel w = some ps) (hw : w ∉ words) : 2 ≤ ps.length := by
  obtain ⟨hmem, hrw⟩ := tryRec_sound words fuel w ps h
  match ps, hrw.ne_nil with
  | [p], _ =>
    exfalso
    have : p = w := hrw.eq_single
    exact hw (this ▸ hmem p (List.mem_singleton_self p))
  | p :: q :: tl, _ => simp

theorem tryRec_succ (words : List Word) (fuel : Nat) (word : Word) :
    tryRec words (fuel + 1) word =
      if word.length < _min_part_len * 2 then
        if word ∈ words then some [word] else none
      else
        indexLoop words (tryRec words fuel) word
          (downRange (word.length - _min_part_len) (_min_part_len - 1)) none := rfl

/-- If no index in the list has a dictionary-member prefix, the index loop
just returns the incoming `best`. -/
theorem indexLoop_skip_all {words : List Word} {recur : Word → Option (List Word)} {w : Word} :
    ∀ idxs : List Nat, (∀ i ∈ idxs, w.take i ∉ words) →
      ∀ best, indexLoop words recur w idxs best = best := by
  intro idxs
  induction idxs with
  | nil => intro h best; rfl
  | cons i is ih =>
    intro h best
    rw [indexLoop_cons_notMem (h i (List.mem_cons_self i is))]
    exact ih (fun x hx => h x (List.mem_cons_of_mem i hx)) best

/-! ## Claim C1 -/

/-- C1 counterexample: with dictionary `{"solstol","sol","stol"}` the word
`"solstol"` is itself a dictionary member, yet `split` returns
`is_compound = true` with `parts = ["sol","stol"]`, not `[w]` (the behavior
the repository's own `test_custom_wordlist` asserts). -/
theorem c1_counterexample :
    "solstol".toList ∈ ["solstol".toList, "sol".toList, "stol".toList] ∧
    (split ["solstol".toList, "sol".toList, "stol".toList] "solstol".toList).is_compound
      = true ∧
    (split ["solstol".toList, "sol".toList, "stol".toList] "solstol".toList).parts
      ≠ ["solstol".toList] := by
  refine ⟨by decide, ?_, ?_⟩
  · rw [split_eq]; decide
  · rw [split_eq]; decide

/-- C1 (amended): for a nonempty Dictionary member `w` such that no prefix of
the lowercased word at a split point considered by the search (lengths
`2 … len-2`) is itself a Dictionary member, `split w` returns
`is_compound = false` and `parts = [w]`. -/
theorem c1_theorem (words : List Word) (w : Word) (_hmem : w ∈ words) (hne : w ≠ [])
    (hpre : ∀ i ∈ downRange ((pyLower w).length - _min_part_len) (_min_part_len - 1),
      (pyLower w).take i ∉ words) :
    (split words w).is_compound = false ∧ (split words w).parts = [w] := by
  rw [split_eq]
  by_cases hlen : w.length < 2
  · rw [if_pos hlen]
    exact ⟨rfl, by simp [hne]⟩
  · rw [if_neg hlen]
    by_cases h4 : (pyLower w).length < _min_part_len * 2
    · rw [show (6 : Nat) = 5 + 1 from rfl, tryRec_succ, if_pos h4]
      by_cases hw : pyLower w ∈ words
      · rw [if_pos hw]
        exact ⟨rfl, rfl⟩
      · rw [if_neg hw]
        exact ⟨rfl, rfl⟩
    · rw [show (6 : Nat) = 5 + 1 from rfl, tryRec_succ, if_neg h4,
        indexLoop_skip_all _ hpre none]
      exact ⟨rfl, rfl⟩

/-- C1 witness. -/
theorem c1_witness :
    (split ["hund".toList] "hund".toList).is_compound = false ∧
    (split ["hund".toList] "hund".toList).parts = ["hund".toList] :=
  c1_theorem ["hund".toList] "hund".toList (by decide) (by decide) (by decide)

/-! ## Claim C2 -/

/-- C2: whenever `split` reports a compound, there is a choice of joiner
fragments, one per boundary, whose interleaving with the parts rebuilds the
lowercased original word exactly. -/
theorem c2_theorem (words : List Word) (word : Word)
    (h : (split words word).is_compound = true) :
    Reconstructs (split words word).parts (pyLower word) := by
  rw [split_eq] at h ⊢
  by_cases hlen : word.length < 2
  · rw [if_pos hlen] at h
    simp at h
  · rw [if_neg hlen] at h ⊢
    cases htr : tryRec words 6 (pyLower word) with
    | none =>
      rw [htr] at h
      exact Bool.noConfusion h
    | some ps =>
      rw [htr] at h
      have h2 : (if ps.length > 1 then { word := word, parts := ps, is_compound := true }
          else ({ word := word, parts := [word], is_compound := false } :
            CompoundSplit)).is_compound = true := h
      show Reconstructs
        (if ps.length > 1 then { word := word, parts := ps, is_compound := true }
          else ({ word := word, parts := [word], is_compound := false } :
            CompoundSplit)).parts (pyLower word)
      by_cases hps : ps.length > 1
      · rw [if_pos hps]
        exact (tryRec_sound words 6 (pyLower word) ps htr).2
      · rw [if_neg hps] at h2
        simp at h2

/-- C2 witness. -/
theorem c2_witness :
    (split ["sol".toList, "stol".toList] "solstol".toList).is_compound = true ∧
    Reconstructs (split ["sol".toList, "stol".toList] "solstol".toList).parts
      (pyLower "solstol".toList) := by
  have h : (split ["sol".toList, "stol".toList] "solstol".toList).is_compound = true := by
    rw [split_eq]; decide
  exact ⟨h, c2_theorem _ _ h⟩

/-! ## Claim C4 -/

/-- C4: whenever `split` reports a compound, there are at least two parts and
every part is a Dictionary member. -/
theorem c4_theorem (words : List Word) (word : Word)
    (h : (split words word).is_compound = true) :
    2 ≤ (split words word).parts.length ∧
      ∀ p ∈ (split words word).parts, p ∈ words := by
  rw [split_eq] at h ⊢
  by_cases hlen : word.length < 2
  · rw [if_pos hlen] at h
    simp at h
  · rw [if_neg hlen] at h ⊢
    cases htr : tryRec words 6 (pyLower word) with
    | none =>
      rw [htr] at h
      exact Bool.noConfusion h
    | some ps =>
      rw [htr] at h
      have h2 : (if ps.length > 1 then { word := word, parts := ps, is_compound := true }
          else ({ word := word, parts := [word], is_compound := false } :
            CompoundSplit)).is_compound = true := h
      show 2 ≤ (if ps.length > 1 then { word := word, parts := ps, is_compound := true }
          else ({ word := word, parts := [word], is_compound := false } :
            CompoundSplit)).parts.length ∧
        ∀ p ∈ (if ps.length > 1 then { word := word, parts := ps, is_compound := true }
          else ({ word := word, parts := [word], is_compound := false } :
            CompoundSplit)).parts, p ∈ words
      by_cases hps : ps.length > 1
      · rw [if_pos hps]
        exact ⟨hps, (tryRec_sound words 6 (pyLower word) ps htr).1⟩
      · rw [if_neg hps] at h2
        simp at h2

/-- C4 witness. -/
theorem c4_witness :
    (split ["barn".toList, "bok".toList] "barnbok".toList).is_compound = true ∧
    2 ≤ (split ["barn".toList, "bok".toList] "barnbok".toList).parts.length ∧
    ∀ p ∈ (split ["barn".toList, "bok".toList] "barnbok".toList).parts,
      p ∈ ["barn".toList, "bok".toList] := by
  have h : (split ["barn".toList, "bok".toList] "barnbok".toList).is_compound = true := by
    rw [split_eq]; decide
  exact ⟨h, c4_theorem _ _ h⟩

/-! ## Claim C6 -/

/-- C6 counterexample: on a non-compound word that contains an upper-case
letter, `split` returns the word as given — not lowercased — as its single
part (`CompoundSplitter.split` line 60 returns `parts=[word]`, the original). -/
theorem c6_counterexample :
    (split [] "Hi".toList).is_compound = false ∧
    "Hi".toList ≠ [] ∧
    (split [] "Hi".toList).parts ≠ [pyLower "Hi".toList] := by
  refine ⟨?_, by decide, ?_⟩
  · rw [split_eq]; decide
  · rw [split_eq]; decide

/-- C6 (amended): whenever `split` reports a non-compound, `parts` is the
one-element list holding the original word as given (not lowercased), or the
empty list when the input was empty. -/
theorem c6_theorem (words : List Word) (word : Word)
    (h : (split words word).is_compound = false) :
    (split words word).parts = if word = [] then [] else [word] := by
  rw [split_eq] at h ⊢
  by_cases hlen : word.length < 2
  · rw [if_pos hlen]
  · have hne : word ≠ [] := by
      intro h0
      subst h0
      exact hlen (by decide)
    rw [if_neg hlen] at h ⊢
    rw [if_neg hne]
    cases htr : tryRec words 6 (pyLower word) with
    | none => rfl
    | some ps =>
      rw [htr] at h
      have h2 : (if ps.length > 1 then { word := word, parts := ps, is_compound := true }
          else ({ word := word, parts := [word], is_compound := false } :
            CompoundSplit)).is_compound = false := h
      show (if ps.length > 1 then { word := word, parts := ps, is_compound := true }
          else ({ word := word, parts := [word], is_compound := false } :
            CompoundSplit)).parts = [word]
      by_cases hps : ps.length > 1
      · rw [if_pos hps] at h2
        simp at h2
      · rw [if_neg hps]

/-- C6 witness. -/
theorem c6_witness :
    (split [] "x".toList).is_compound = false ∧
    (split [] "x".toList).parts = if "x".toList = [] then [] else ["x".toList] := by
  have h : (split [] "x".toList).is_compound = false := by rw [split_eq]; decide
  exact ⟨h, c6_theorem [] "x".toList h⟩

/-! ## Claim C10 -/

/-- C10: with wordlist `{"bo","a"}` and word `"bosa"`, `split` returns
`is_compound = true` and `parts = ["bo","a"]`, whose second part has length 1,
strictly below the configured minimum morpheme length 2: after stripping the
joiner `"s"` the leftover `"a"` is accepted without a length re-check. -/
theorem c10_theorem :
    ("bo".toList ∈ ["bo".toList, "a".toList] ∧ "a".toList ∈ ["bo".toList, "a".toList]) ∧
    split ["bo".toList, "a".toList] "bosa".toList =
      { word := "bosa".toList, parts := ["bo".toList, "a".toList], is_compound := true } ∧
    ("a".toList).length < _min_part_len := by
  refine ⟨by decide, ?_, by decide⟩
  rw [split_eq]; decide

/-! ## Claim C5 -/

/-- C5: the recursion is bounded — any call at depth greater than 5
(modelled by `depth + 6`, equivalently fuel 0) contributes no candidate
(`none`) rather than an error, and on a chain of dictionary morphemes the
search degrades gracefully: with dictionary `{"ab"}`, a chain of 7 copies
still segments into 7 parts, while a chain of 8 copies exceeds the depth
bound and comes back as a non-compound result.  Termination itself is by
construction: `_try_split` is a total function (well-founded on `6 - depth`,
each recursive call increasing the depth). -/
theorem c5_theorem :
    (∀ (words : List Word) (w : Word) (depth : Nat), _try_split words w (depth + 6) = none) ∧
    (split ["ab".toList] "ababababababab".toList).is_compound = true ∧
    (split ["ab".toList] "ababababababab".toList).parts.length = 7 ∧
    split ["ab".toList] "abababababababab".toList =
      { word := "abababababababab".toList, parts := ["abababababababab".toList],
        is_compound := false } := by
  refine ⟨?_, ?_, ?_, ?_⟩
  · intro words w depth
    rw [try_split_eq_tryRec words 0 (depth + 6) w (by omega)]
    rfl
  · rw [split_eq]; decide
  · rw [split_eq]; decide
  · rw [split_eq]; decide

theorem toLower_toLower (c : Char) : c.toLower.toLower = c.toLower := by
  have hlow : ∀ d : Char, d.toLower =
      if 65 ≤ d.toNat ∧ d.toNat ≤ 90 then Char.ofNat (d.toNat + 32) else d := fun d => rfl
  by_cases h : 65 ≤ c.toNat ∧ c.toNat ≤ 90
  · obtain ⟨h1, h2⟩ := h
    rw [hlow c, if_pos ⟨h1, h2⟩]
    obtain ⟨n, hn⟩ : ∃ n, c.toNat = n := ⟨c.toNat, rfl⟩
    rw [hn] at h1 h2 ⊢
    interval_cases n <;> decide
  · rw [hlow c, if_neg h, hlow c, if_neg h]

theorem pyLower_idem (w : Word) : pyLower (pyLower w) = pyLower w := by
  simp only [pyLower, List.map_map]
  exact List.map_congr_left (fun c _ => toLower_toLower c)

/-- C9 counterexample: a caller-supplied wordlist is stored exactly as given,
so an upper-case entry stays upper-case and the lowercased membership probe
used by `split` misses it. -/
theorem c9_counterexample :
    "HUND".toList ∈ mkSplitterWords (some ["HUND".toList]) none ∧
    pyLower "HUND".toList ≠ "HUND".toList ∧
    pyLower "HUND".toList ∉ mkSplitterWords (some ["HUND".toList]) none := by
  refine ⟨by decide, by decide, by decide⟩

set_option maxRecDepth 8192 in
/-- C9 (amended): entries loaded from the wordlist resource are lowercased at
load time, and the built-in fallback vocabulary is already lowercase, but a
caller-supplied set is stored as-is with no normalization at construction. -/
theorem c9_theorem :
    (∀ (lines : List Word) (e : Word),
      e ∈ _load_default_wordlist (some lines) → pyLower e = e) ∧
    (∀ e ∈ _BUILTIN_WORDS, pyLower e = e) ∧
    (∀ (wl : List Word) (res : Option (List Word)), mkSplitterWords (some wl) res = wl) := by
  refine ⟨?_, by decide, fun wl res => rfl⟩
  intro lines e he
  simp only [_load_default_wordlist, List.mem_map] at he
  obtain ⟨l, -, rfl⟩ := he
  exact pyLower_idem (pyStrip l)

/-- C9 witness. -/
theorem c9_witness :
    ("hund".toList ∈ _load_default_wordlist (some ["# comment".toList, " Hund ".toList]) ∧
      pyLower "hund".toList = "hund".toList) ∧
    ("barn".toList ∈ _BUILTIN_WORDS ∧ pyLower "barn".toList = "barn".toList) ∧
    mkSplitterWords (some ["X".toList]) none = ["X".toList] :=
  ⟨⟨by decide, c9_theorem.1 ["# comment".toList, " Hund ".toList] "hund".toList (by decide)⟩,
   ⟨by decide, c9_theorem.2.1 "barn".toList (by decide)⟩,
   c9_theorem.2.2 ["X".toList] none⟩

/-! ## Claims C7 and C8: splitting a joined pair -/

theorem stripJoiner_self (j b : Word) : stripJoiner j (j ++ b) = some b := by
  unfold stripJoiner
  by_cases hj : j = []
  · rw [if_pos hj]
    subst hj
    rfl
  · rw [if_neg hj, if_pos (List.isPrefixOf_iff_prefix.mpr ⟨b, rfl⟩), List.drop_left]

/-- Once `best` holds a 2-part candidate, the rest of the joiner loop keeps it:
later direct candidates also have 2 parts (not fewer), and recursive
candidates have at least 3. -/
theorem joinerLoop_keeps_two {words : List Word} {recur : Word → Option (List Word)}
    {pref remainder : Word} {c : List Word} (hc : c.length = 2)
    (hrec2 : ∀ r s, recur r = some s → r ∉ words → 2 ≤ s.length) :
    ∀ js : List Word, joinerLoop words recur pref remainder js (some c) = some c := by
  intro js
  induction js with
  | nil => rfl
  | cons j0 js ih =>
    cases hstrip : stripJoiner j0 remainder with
    | none => rw [joinerLoop_cons_none hstrip]; exact ih
    | some rest =>
      rw [joinerLoop_cons_some hstrip]
      by_cases hre : rest = []
      · rw [if_pos hre]; exact ih
      · rw [if_neg hre]
        by_cases hrw : rest ∈ words
        · rw [if_pos hrw]
          have hupd : updateBest (some c) [pref, rest] = some c := by
            simp [updateBest, hc]
          rw [hupd]; exact ih
        · rw [if_neg hrw]
          cases hsub : recur rest with
          | none => exact ih
          | some sub =>
            show (if sub = [] then joinerLoop words recur pref remainder js (some c)
              else joinerLoop words recur pref remainder js
                (updateBest (some c) (pref :: sub))) = some c
            by_cases hse : sub = []
            · rw [if_pos hse]; exact ih
            · rw [if_neg hse]
              have h2 : 2 ≤ sub.length := hrec2 rest sub hsub hrw
              have hupd : updateBest (some c) (pref :: sub) = some c := by
                simp only [updateBest, List.length_cons, hc]
                rw [if_neg (by omega)]
              rw [hupd]; exact ih

/-- If `j` occurs in the remaining joiner list, the remainder is `j ++ b` with
`b` a nonempty dictionary word, no other joiner in the list strips the
remainder down to a nonempty dictionary word, and the incoming `best` is
either empty or a candidate with at least 3 parts, then the joiner loop ends
with exactly `[pref, b]`. -/
theorem joinerLoop_finds {words : List Word} {recur : Word → Option (List Word)}
    {pref j b : Word}
    (hrec2 : ∀ r s, recur r = some s → r ∉ words → 2 ≤ s.length)
    (hb : b ∈ words) (hbne : b ≠ []) :
    ∀ js : List Word, j ∈ js →
      (∀ j' ∈ js, j' ≠ j → ∀ rest, stripJoiner j' (j ++ b) = some rest →
        rest = [] ∨ rest ∉ words) →
      ∀ best : Option (List Word),
        best = none ∨ (∃ b0, best = some b0 ∧ 3 ≤ b0.length) →
        joinerLoop words recur pref (j ++ b) js best = some [pref, b] := by
  intro js
  induction js with
  | nil => intro hj; simp at hj
  | cons j0 js ih =>
    intro hj hexcl best hbest
    by_cases hj0 : j0 = j
    · subst hj0
      rw [joinerLoop_cons_some (stripJoiner_self j0 b), if_neg hbne, if_pos hb]
      have hupd : updateBest best [pref, b] = some [pref, b] := by
        rcases hbest with h | ⟨b0, hb0, h3⟩
        · subst h; rfl
        · subst hb0
          have hlt : ([pref, b] : List Word).length < b0.length := by
            simp only [List.length_cons, List.length_nil]
            omega
          simp only [updateBest]
          rw [if_pos hlt]
      rw [hupd]
      exact joinerLoop_keeps_two (show ([pref, b] : List Word).length = 2 from rfl) hrec2 js
    · have hj' : j ∈ js := by
        rcases List.mem_cons.mp hj with h | h
        · exact absurd h.symm hj0
        · exact h
      have hexcl' : ∀ j' ∈ js, j' ≠ j → ∀ rest, stripJoiner j' (j ++ b) = some rest →
          rest = [] ∨ rest ∉ words :=
        fun j' hmem => hexcl j' (List.mem_cons_of_mem j0 hmem)
      cases hstrip : stripJoiner j0 (j ++ b) with
      | none =>
        rw [joinerLoop_cons_none hstrip]
        exact ih hj' hexcl' best hbest
      | some rest =>
        rw [joinerLoop_cons_some hstrip]
        by_cases hre : rest = []
        · rw [if_pos hre]
          exact ih hj' hexcl' best hbest
        · rw [if_neg hre]
          have hrw : rest ∉ words := by
            rcases hexcl j0 (List.mem_cons_self j0 js) hj0 rest hstrip with h | h
            · exact absurd h hre
            · exact h
          rw [if_neg hrw]
          cases hsub : recur rest with
          | none => exact ih hj' hexcl' best hbest
          | some sub =>
            show (if sub = [] then joinerLoop words recur pref (j ++ b) js best
              else joinerLoop words recur pref (j ++ b) js
                (updateBest best (pref :: sub))) = some [pref, b]
            by_cases hse : sub = []
            · rw [if_pos hse]
              exact ih hj' hexcl' best hbest
            · rw [if_neg hse]
              have h2 : 2 ≤ sub.length := hrec2 rest sub hsub hrw
              have hinv : ∃ b1, updateBest best (pref :: sub) = some b1 ∧ 3 ≤ b1.length := by
                rcases hbest with h | ⟨b0, hb0, h3⟩
                · subst h
                  exact ⟨pref :: sub, rfl, by simp; omega⟩
                · subst hb0
                  simp only [updateBest]
                  by_cases hlt : (pref :: sub).length < b0.length
                  · rw [if_pos hlt]
                    exact ⟨pref :: sub, rfl, by simp; omega⟩
                  · rw [if_neg hlt]
                    exact ⟨b0, rfl, h3⟩
              obtain ⟨b1, hb1, h31⟩ := hinv
              rw [hb1]
              exact ih hj' hexcl' (some b1) (Or.inr ⟨b1, rfl, h31⟩)

theorem indexLoop_skip_prefix {words : List Word} {recur : Word → Option (List Word)}
    {w : Word} :
    ∀ (l1 l2 : List Nat) (best : Option (List Word)), (∀ i ∈ l1, w.take i ∉ words) →
      indexLoop words recur w (l1 ++ l2) best = indexLoop words recur w l2 best := by
  intro l1
  induction l1 with
  | nil => intro l2 best h; rfl
  | cons i is ih =>
    intro l2 best h
    rw [List.cons_append, indexLoop_cons_notMem (h i (List.mem_cons_self i is))]
    exact ih l2 best (fun x hx => h x (List.mem_cons_of_mem i hx))

theorem downRange_append {a b c : Nat} (hbc : b ≤ c) (hca : c ≤ a) :
    downRange a b = downRange a c ++ downRange c b := by
  unfold downRange
  rw [← List.reverse_append]
  congr 1
  have h1 : c + 1 = b + 1 + (c - b) := by omega
  rw [h1, List.range'_append_1]
  congr 1
  omega

theorem downRange_cons {a b : Nat} (h : b < a) : downRange a b = a :: downRange (a - 1) b := by
  unfold downRange
  have h1 : a - b = (a - 1 - b) + 1 := by omega
  have h2 : b + 1 + (a - 1 - b) = a := by omega
  rw [h1, List.range'_1_concat, h2, List.reverse_append]
  rfl

theorem mem_downRange {a b i : Nat} : i ∈ downRange a b ↔ b < i ∧ i ≤ a := by
  unfold downRange
  rw [List.mem_reverse, List.mem_range']
  constructor
  · rintro ⟨k, hk, rfl⟩
    omega
  · rintro ⟨h1, h2⟩
    exact ⟨i - (b + 1), by omega, by omega⟩

/-- Shared core of C7 and C8: if `a` and `b` are dictionary members, `j` a
joiner, the word `a ++ j ++ b` is lowercase, no longer prefix than `a` is a
dictionary member at any considered split point, and no joiner other than `j`
strips `j ++ b` down to a nonempty dictionary word, then `split` returns
exactly `[a, b]`. -/
theorem split_joined_pair (words : List Word) (a j b : Word)
    (ha : a ∈ words) (hb : b ∈ words) (hj : j ∈ _JOINERS)
    (ha2 : 2 ≤ a.length) (hjb2 : 2 ≤ j.length + b.length) (hbne : b ≠ [])
    (hlow : pyLower (a ++ j ++ b) = a ++ j ++ b)
    (hpre : ∀ i ∈ downRange (a.length + j.length + b.length - 2) a.length,
      (a ++ j ++ b).take i ∉ words)
    (hjoin : ∀ j' ∈ _JOINERS, j' ≠ j →
      ∀ rest ∈ (stripJoiner j' (j ++ b)).toList, rest = [] ∨ rest ∉ words) :
    split words (a ++ j ++ b) =
      { word := a ++ j ++ b, parts := [a, b], is_compound := true } := by
  have hwlen : (a ++ j ++ b).length = a.length + j.length + b.length := by
    simp [List.length_append]
    omega
  rw [split_eq, if_neg (by omega), hlow]
  rw [show (6 : Nat) = 5 + 1 from rfl, tryRec_succ,
    if_neg (by rw [hwlen]; simp [_min_part_len]; omega)]
  have hsplitRange : downRange ((a ++ j ++ b).length - _min_part_len) (_min_part_len - 1) =
      downRange (a.length + j.length + b.length - 2) a.length ++
        (a.length :: downRange (a.length - 1) (_min_part_len - 1)) := by
    rw [hwlen]
    have hr1 : downRange (a.length + j.length + b.length - 2) 1 =
        downRange (a.length + j.length + b.length - 2) a.length ++ downRange a.length 1 :=
      downRange_append (by omega) (by omega)
    have hr2 : downRange a.length 1 = a.length :: downRange (a.length - 1) 1 :=
      downRange_cons (by omega)
    show downRange (a.length + j.length + b.length - 2) 1 = _
    rw [hr1, hr2]
    rfl
  rw [hsplitRange, indexLoop_skip_prefix _ _ none hpre]
  have htake : (a ++ j ++ b).take a.length = a := by
    rw [List.append_assoc]
    exact List.take_left a (j ++ b)
  have hdrop : (a ++ j ++ b).drop a.length = j ++ b := by
    rw [List.append_assoc]
    exact List.drop_left a (j ++ b)
  rw [indexLoop_cons_mem (by rw [htake]; exact ha), htake, hdrop]
  have hrec2 : ∀ r s, tryRec words 5 r = some s → r ∉ words → 2 ≤ s.length :=
    fun r s hs hr => tryRec_notMem_length hs hr
  have hjoin' : ∀ j' ∈ _JOINERS, j' ≠ j → ∀ rest, stripJoiner j' (j ++ b) = some rest →
      rest = [] ∨ rest ∉ words := by
    intro j' hj' hne rest hrest
    exact hjoin j' hj' hne rest (by rw [hrest]; exact List.mem_singleton_self rest)
  rw [joinerLoop_finds hrec2 hb hbne _JOINERS hj hjoin' none (Or.inl rfl)]
  rfl

/-- C7 counterexample: with dictionary `{"ab","cd","abs"}`, members
`a = "ab"`, `b = "cd"` and joiner `j = "s"`, `split(a + j + b)` returns
`parts = ["abs","cd"]` — the longer member prefix `"abs"` wins the
longest-prefix-first scan, so the joiner is not consumed and
`parts ≠ [a, b]`. -/
theorem c7_counterexample :
    "ab".toList ∈ ["ab".toList, "cd".toList, "abs".toList] ∧
    "cd".toList ∈ ["ab".toList, "cd".toList, "abs".toList] ∧
    ['s'] ∈ _JOINERS ∧
    (split ["ab".toList, "cd".toList, "abs".toList]
      ("ab".toList ++ ['s'] ++ "cd".toList)).parts ≠ ["ab".toList, "cd".toList] := by
  refine ⟨by decide, by decide, by decide, ?_⟩
  rw [split_eq]; decide

/-- C7 (amended): for Dictionary members `a, b` and joiner `j` (word
lowercase, `|a| ≥ 2`, `|j| + |b| ≥ 2`, `b` nonempty), `split(a + j + b)`
returns `parts = [a, b]` with the joiner consumed, provided no prefix longer
than `a` at a considered split point is a Dictionary member and no joiner
other than `j` strips `j ++ b` down to a nonempty Dictionary member. -/
theorem c7_theorem (words : List Word) (a j b : Word)
    (ha : a ∈ words) (hb : b ∈ words) (hj : j ∈ _JOINERS)
    (ha2 : 2 ≤ a.length) (hjb2 : 2 ≤ j.length + b.length) (hbne : b ≠ [])
    (hlow : pyLower (a ++ j ++ b) = a ++ j ++ b)
    (hpre : ∀ i ∈ downRange (a.length + j.length + b.length - 2) a.length,
      (a ++ j ++ b).take i ∉ words)
    (hjoin : ∀ j' ∈ _JOINERS, j' ≠ j →
      ∀ rest ∈ (stripJoiner j' (j ++ b)).toList, rest = [] ∨ rest ∉ words) :
    split words (a ++ j ++ b) =
      { word := a ++ j ++ b, parts := [a, b], is_compound := true } :=
  split_joined_pair words a j b ha hb hj ha2 hjb2 hbne hlow hpre hjoin

/-- C7 witness. -/
theorem c7_witness :
    split ["sol".toList, "stol".toList] ("sol".toList ++ ['s'] ++ "stol".toList) =
      { word := "sol".toList ++ ['s'] ++ "stol".toList,
        parts := ["sol".toList, "stol".toList], is_compound := true } :=
  c7_theorem ["sol".toList, "stol".toList] "sol".toList ['s'] "stol".toList
    (by decide) (by decide) (by decide) (by decide) (by decide) (by decide)
    (by decide) (by decide) (by decide)

/-- C8 counterexample: with dictionary `{"ab","cdgh","abcd","gh"}` and members
`a = "ab"`, `b = "cdgh"`, the word `a ++ b = "abcdgh"` contains no joiner
letter at all (so there is no joiner ambiguity of any kind), yet
`split(a + b)` returns `parts = ["abcd","gh"]` ≠ `[a, b]`: the longer member
prefix `"abcd"` wins the longest-prefix-first scan. -/
theorem c8_counterexample :
    "ab".toList ∈ ["ab".toList, "cdgh".toList, "abcd".toList, "gh".toList] ∧
    "cdgh".toList ∈ ["ab".toList, "cdgh".toList, "abcd".toList, "gh".toList] ∧
    (∀ c ∈ "ab".toList ++ "cdgh".toList, [c] ∉ _JOINERS) ∧
    (split ["ab".toList, "cdgh".toList, "abcd".toList, "gh".toList]
      ("ab".toList ++ "cdgh".toList)).is_compound = true ∧
    (split ["ab".toList, "cdgh".toList, "abcd".toList, "gh".toList]
      ("ab".toList ++ "cdgh".toList)).parts ≠ ["ab".toList, "cdgh".toList] := by
  refine ⟨by decide, by decide, by decide, ?_, ?_⟩
  · rw [split_eq]; decide
  · rw [split_eq]; decide

/-- C8 (amended): for Dictionary members `a, b` of length at least 2 (word
lowercase), `split(a + b)` returns `is_compound = true` and
`parts = [a, b]`, provided no prefix longer than `a` at a considered split
point is a Dictionary member and no nonempty joiner strips `b` down to a
nonempty Dictionary member. -/
theorem c8_theorem (words : List Word) (a b : Word)
    (ha : a ∈ words) (hb : b ∈ words)
    (ha2 : 2 ≤ a.length) (hb2 : 2 ≤ b.length)
    (hlow : pyLower (a ++ b) = a ++ b)
    (hpre : ∀ i ∈ downRange (a.length + b.length - 2) a.length,
      (a ++ b).take i ∉ words)
    (hjoin : ∀ j' ∈ _JOINERS, j' ≠ [] →
      ∀ rest ∈ (stripJoiner j' b).toList, rest = [] ∨ rest ∉ words) :
    split words (a ++ b) =
      { word := a ++ b, parts := [a, b], is_compound := true } := by
  have hbne : b ≠ [] := by
    intro h0
    rw [h0] at hb2
    simp at hb2
  have h0 : a ++ [] ++ b = a ++ b := by rw [List.append_nil]
  have key := split_joined_pair words a [] b ha hb (by decide) ha2 (by simpa using hb2) hbne
    (by rw [h0]; exact hlow) (fun i hi => by rw [h0]; exact hpre i hi) hjoin
  rw [h0] at key
  exact key

/-- C8 witness. -/
theorem c8_witness :
    split ["sol".toList, "stol".toList] ("sol".toList ++ "stol".toList) =
      { word := "sol".toList ++ "stol".toList,
        parts := ["sol".toList, "stol".toList], is_compound := true } :=
  c8_theorem ["sol".toList, "stol".toList] "sol".toList "stol".toList
    (by decide) (by decide) (by decide) (by decide) (by decide) (by decide) (by decide)

/-! ## Claim C3: ranking and tie-break -/

theorem candsJoiner_cons_none {words : List Word} {recurC : Word → List (List Word)}
    {pref remainder j : Word} {js : List Word} (h : stripJoiner j remainder = none) :
    candsJoiner words recurC pref remainder (j :: js) =
      candsJoiner words recurC pref remainder js := by
  simp [candsJoiner, h]

theorem candsJoiner_cons_some {words : List Word} {recurC : Word → List (List Word)}
    {pref remainder j rest : Word} {js : List Word} (h : stripJoiner j remainder = some rest) :
    candsJoiner words recurC pref remainder (j :: js) =
      (if rest = [] then candsJoiner words recurC pref remainder js
      else if rest ∈ words then [pref, rest] :: candsJoiner words recurC pref remainder js
      else
        ((recurC rest).map (fun s => pref :: s)) ++
          candsJoiner words recurC pref remainder js) := by
  simp [candsJoiner, h]

theorem candsIdx_cons {words : List Word} {recurC : Word → List (List Word)}
    {word : Word} {i : Nat} {is : List Nat} :
    candsIdx words recurC word (i :: is) =
      (if word.take i ∈ words then
        candsJoiner words recurC (word.take i) (word.drop i) _JOINERS
      else []) ++ candsIdx words recurC word is := rfl

theorem allCands_succ (words : List Word) (fuel : Nat) (w : Word) :
    allCands words (fuel + 1) w =
      if w.length < _min_part_len * 2 then (if w ∈ words then [[w]] else [])
      else
        candsIdx words (allCands words fuel) w
          (downRange (w.length - _min_part_len) (_min_part_len - 1)) := rfl

theorem firstTwoJoiner_cons_none {words : List Word} {pref remainder j : Word}
    {js : List Word} (h : stripJoiner j remainder = none) :
    firstTwoJoiner words pref remainder (j :: js) = firstTwoJoiner words pref remainder js := by
  simp [firstTwoJoiner, h]

theorem firstTwoJoiner_cons_some {words : List Word} {pref remainder j rest : Word}
    {js : List Word} (h : stripJoiner j remainder = some rest) :
    firstTwoJoiner words pref remainder (j :: js) =
      (if rest = [] then firstTwoJoiner words pref remainder js
      else if rest ∈ words then some [pref, rest]
      else firstTwoJoiner words pref remainder js) := by
  simp [firstTwoJoiner, h]

theorem firstTwoIdx_cons_mem {words : List Word} {word : Word} {i : Nat} {is : List Nat}
    (h : word.take i ∈ words) :
    firstTwoIdx words word (i :: is) =
      (match firstTwoJoiner words (word.take i) (word.drop i) _JOINERS with
      | some c => some c
      | none => firstTwoIdx words word is) := by
  simp [firstTwoIdx, h]

theorem firstTwoIdx_cons_notMem {words : List Word} {word : Word} {i : Nat} {is : List Nat}
    (h : word.take i ∉ words) :
    firstTwoIdx words word (i :: is) = firstTwoIdx words word is := by
  simp [firstTwoIdx, h]

theorem hasLen2_iff {o : Option (List Word)} :
    hasLen2 o = true ↔ ∃ b, o = some b ∧ b.length = 2 := by
  cases o with
  | none => simp [hasLen2]
  | some b => simp [hasLen2]

theorem candsJoiner_ge2 {words : List Word} {recurC : Word → List (List Word)}
    {pref remainder : Word} (hne : ∀ r s, s ∈ recurC r → s ≠ []) :
    ∀ (js : List Word) (c : List Word),
      c ∈ candsJoiner words recurC pref remainder js → 2 ≤ c.length := by
  intro js
  induction js with
  | nil => intro c hc; exact absurd hc (List.not_mem_nil c)
  | cons j js ih =>
    intro c hc
    cases hstrip : stripJoiner j remainder with
    | none =>
      rw [candsJoiner_cons_none hstrip] at hc
      exact ih c hc
    | some rest =>
      rw [candsJoiner_cons_some hstrip] at hc
      by_cases hre : rest = []
      · rw [if_pos hre] at hc; exact ih c hc
      · rw [if_neg hre] at hc
        by_cases hrw : rest ∈ words
        · rw [if_pos hrw] at hc
          rcases List.mem_cons.mp hc with h | h
          · subst h; simp
          · exact ih c h
        · rw [if_neg hrw] at hc
          rcases List.mem_append.mp hc with h | h
          · obtain ⟨s, hs, rfl⟩ := List.mem_map.mp h
            cases s with
            | nil => exact absurd rfl (hne rest [] hs)
            | cons x xs => simp only [List.length_cons]; omega
          · exact ih c h

theorem candsIdx_ge2 {words : List Word} {recurC : Word → List (List Word)} {w : Word}
    (hne : ∀ r s, s ∈ recurC r → s ≠ []) :
    ∀ (idxs : List Nat) (c : List Word), c ∈ candsIdx words recurC w idxs → 2 ≤ c.length := by
  intro idxs
  induction idxs with
  | nil => intro c hc; exact absurd hc (List.not_mem_nil c)
  | cons i is ih =>
    intro c hc
    rw [candsIdx_cons] at hc
    rcases List.mem_append.mp hc with h | h
    · by_cases hmem : w.take i ∈ words
      · rw [if_pos hmem] at h
        exact candsJoiner_ge2 hne _JOINERS c h
      · rw [if_neg hmem] at h
        exact absurd h (List.not_mem_nil c)
    · exact ih c h

theorem allCands_ne_nil (words : List Word) :
    ∀ (fuel : Nat) (w : Word) (c : List Word), c ∈ allCands words fuel w → c ≠ [] := by
  intro fuel
  induction fuel with
  | zero => intro w c hc; exact absurd hc (List.not_mem_nil c)
  | succ n ih =>
    intro w c hc
    by_cases hlen : w.length < _min_part_len * 2
    · rw [allCands_succ, if_pos hlen] at hc
      by_cases hw : w ∈ words
      · rw [if_pos hw] at hc
        rw [List.mem_singleton.mp hc]
        simp
      · rw [if_neg hw] at hc
        exact absurd hc (List.not_mem_nil c)
    · rw [allCands_succ, if_neg hlen] at hc
      have h2 := candsIdx_ge2 (fun r s hs => ih r s hs) _ c hc
      intro h0
      rw [h0] at h2
      simp at h2

/-- The joiner loop returns a candidate no longer than the incoming `best`
and no longer than any candidate it can discover. -/
theorem joinerLoop_min {words : List Word} {recur : Word → Option (List Word)}
    {recurC : Word → List (List Word)} {pref remainder : Word}
    (hrecm : ∀ r c, c ∈ recurC r → ∃ s, recur r = some s ∧ s.length ≤ c.length)
    (hrecne : ∀ r s, recur r = some s → s ≠ []) :
    ∀ (js : List Word) (best : Option (List Word)),
      (∀ b0, best = some b0 →
        ∃ b, joinerLoop words recur pref remainder js best = some b ∧
          b.length ≤ b0.length) ∧
      (∀ c ∈ candsJoiner words recurC pref remainder js,
        ∃ b, joinerLoop words recur pref remainder js best = some b ∧
          b.length ≤ c.length) := by
  intro js
  induction js with
  | nil =>
    intro best
    refine ⟨?_, ?_⟩
    · intro b0 hb0
      exact ⟨b0, hb0, le_rfl⟩
    · intro c hc
      exact absurd hc (List.not_mem_nil c)
  | cons j js ih =>
    intro best
    cases hstrip : stripJoiner j remainder with
    | none =>
      simp only [joinerLoop_cons_none hstrip, candsJoiner_cons_none hstrip]
      exact ih best
    | some rest =>
      by_cases hre : rest = []
      · simp only [joinerLoop_cons_some hstrip, candsJoiner_cons_some hstrip, if_pos hre]
        exact ih best
      · by_cases hrw : rest ∈ words
        · simp only [joinerLoop_cons_some hstrip, candsJoiner_cons_some hstrip,
            if_neg hre, if_pos hrw]
          obtain ⟨b1, hb1⟩ := updateBest_isSome best [pref, rest]
          refine ⟨?_, ?_⟩
          · intro b0 hb0
            obtain ⟨b, hbR, hble⟩ := (ih (updateBest best [pref, rest])).1 b1 hb1
            exact ⟨b, hbR, le_trans hble (updateBest_length_le_best hb0 hb1)⟩
          · intro c hc
            rcases List.mem_cons.mp hc with h | h
            · subst h
              obtain ⟨b, hbR, hble⟩ := (ih (updateBest best [pref, rest])).1 b1 hb1
              exact ⟨b, hbR, le_trans hble (updateBest_length_le_cand hb1)⟩
            · exact (ih (updateBest best [pref, rest])).2 c h
        · cases hrec : recur rest with
          | none =>
            have hCempty : recurC rest = [] := by
              cases hC : recurC rest with
              | nil => rfl
              | cons s ss =>
                obtain ⟨s', hs', -⟩ :=
                  hrecm rest s (by rw [hC]; exact List.mem_cons_self s ss)
                rw [hrec] at hs'
                exact Option.noConfusion hs'
            simp only [joinerLoop_cons_some hstrip, candsJoiner_cons_some hstrip,
              if_neg hre, if_neg hrw, hrec, hCempty, List.map_nil, List.nil_append]
            exact ih best
          | some sub =>
            have hsne : sub ≠ [] := hrecne rest sub hrec
            simp only [joinerLoop_cons_some hstrip, candsJoiner_cons_some hstrip,
              if_neg hre, if_neg hrw, hrec, if_neg hsne]
            obtain ⟨b1, hb1⟩ := updateBest_isSome best (pref :: sub)
            refine ⟨?_, ?_⟩
            · intro b0 hb0
              obtain ⟨b, hbR, hble⟩ := (ih (updateBest best (pref :: sub))).1 b1 hb1
              exact ⟨b, hbR, le_trans hble (updateBest_length_le_best hb0 hb1)⟩
            · intro c hc
              rcases List.mem_append.mp hc with h | h
              · obtain ⟨s0, hs0, rfl⟩ := List.mem_map.mp h
                obtain ⟨s', hs', hsle⟩ := hrecm rest s0 hs0
                rw [hrec] at hs'
                have hss : sub = s' := Option.some.inj hs'
                subst hss
                obtain ⟨b, hbR, hble⟩ := (ih (updateBest best (pref :: sub))).1 b1 hb1
                refine ⟨b, hbR, ?_⟩
                have h1 := updateBest_length_le_cand hb1
                simp only [List.length_cons] at h1 ⊢
                omega
              · exact (ih (updateBest best (pref :: sub))).2 c h

/-- The index loop returns a candidate no longer than the incoming `best` and
no longer than any candidate it can discover — the early 2-part return is
safe because every candidate has at least 2 parts. -/
theorem indexLoop_min {words : List Word} {recur : Word → Option (List Word)}
    {recurC : Word → List (List Word)} {w : Word}
    (hrecm : ∀ r c, c ∈ recurC r → ∃ s, recur r = some s ∧ s.length ≤ c.length)
    (hrecne : ∀ r s, recur r = some s → s ≠ [])
    (hrecCne : ∀ r s, s ∈ recurC r → s ≠ []) :
    ∀ (idxs : List Nat) (best : Option (List Word)),
      (∀ b0, best = some b0 →
        ∃ b, indexLoop words recur w idxs best = some b ∧ b.length ≤ b0.length) ∧
      (∀ c ∈ candsIdx words recurC w idxs,
        ∃ b, indexLoop words recur w idxs best = some b ∧ b.length ≤ c.length) := by
  intro idxs
  induction idxs with
  | nil =>
    intro best
    refine ⟨fun b0 hb0 => ⟨b0, hb0, le_rfl⟩, fun c hc => absurd hc (List.not_mem_nil c)⟩
  | cons i is ih =>
    intro best
    by_cases hmem : w.take i ∈ words
    · by_cases h2 : hasLen2 (joinerLoop words recur (w.take i) (w.drop i) _JOINERS best) = true
      · obtain ⟨b, hb, hb2len⟩ := hasLen2_iff.mp h2
        refine ⟨?_, ?_⟩
        · intro b0 hb0
          rw [indexLoop_cons_mem hmem, if_pos h2]
          exact (joinerLoop_min hrecm hrecne _JOINERS best).1 b0 hb0
        · intro c hc
          rw [indexLoop_cons_mem hmem, if_pos h2]
          rw [candsIdx_cons, if_pos hmem] at hc
          rcases List.mem_append.mp hc with h | h
          · exact (joinerLoop_min hrecm hrecne _JOINERS best).2 c h
          · refine ⟨b, hb, ?_⟩
            rw [hb2len]
            exact candsIdx_ge2 hrecCne is c h
      · refine ⟨?_, ?_⟩
        · intro b0 hb0
          rw [indexLoop_cons_mem hmem, if_neg h2]
          obtain ⟨b1, hb1, hle1⟩ := (joinerLoop_min hrecm hrecne _JOINERS best).1 b0 hb0
          obtain ⟨b, hbR, hble⟩ :=
            (ih (joinerLoop words recur (w.take i) (w.drop i) _JOINERS best)).1 b1 hb1
          exact ⟨b, hbR, le_trans hble hle1⟩
        · intro c hc
          rw [indexLoop_cons_mem hmem, if_neg h2]
          rw [candsIdx_cons, if_pos hmem] at hc
          rcases List.mem_append.mp hc with h | h
          · obtain ⟨b1, hb1, hle1⟩ := (joinerLoop_min hrecm hrecne _JOINERS best).2 c h
            obtain ⟨b, hbR, hble⟩ :=
              (ih (joinerLoop words recur (w.take i) (w.drop i) _JOINERS best)).1 b1 hb1
            exact ⟨b, hbR, le_trans hble hle1⟩
          · exact (ih (joinerLoop words recur (w.take i) (w.drop i) _JOINERS best)).2 c h
    · simp only [indexLoop_cons_notMem hmem, candsIdx_cons, if_neg hmem, List.nil_append]
      exact ih best

/-- Minimality: for every discoverable candidate there is a returned
decomposition at most as long. -/
theorem tryRec_min (words : List Word) :
    ∀ (fuel : Nat) (w : Word) (c : List Word), c ∈ allCands words fuel w →
      ∃ ps, tryRec words fuel w = some ps ∧ ps.length ≤ c.length := by
  intro fuel
  induction fuel with
  | zero => intro w c hc; exact absurd hc (List.not_mem_nil c)
  | succ n ih =>
    intro w c hc
    by_cases hlen : w.length < _min_part_len * 2
    · rw [allCands_succ, if_pos hlen] at hc
      by_cases hw : w ∈ words
      · rw [if_pos hw] at hc
        rw [List.mem_singleton.mp hc]
        refine ⟨[w], ?_, le_rfl⟩
        rw [tryRec_succ, if_pos hlen, if_pos hw]
      · rw [if_neg hw] at hc
        exact absurd hc (List.not_mem_nil c)
    · rw [allCands_succ, if_neg hlen] at hc
      rw [tryRec_succ, if_neg hlen]
      exact (indexLoop_min (fun r c0 hc0 => ih r c0 hc0)
        (fun r s hs => tryRec_ne_nil hs)
        (fun r s hs => allCands_ne_nil words n r s hs) _ none).2 c hc

/-- Whatever the joiner loop returns is the incoming `best` or a discoverable
candidate. -/
theorem joinerLoop_mem {words : List Word} {recur : Word → Option (List Word)}
    {recurC : Word → List (List Word)} {pref remainder : Word}
    (hrecmem : ∀ r s, recur r = some s → s ∈ recurC r) :
    ∀ (js : List Word) (best : Option (List Word)) (b : List Word),
      joinerLoop words recur pref remainder js best = some b →
      best = some b ∨ b ∈ candsJoiner words recurC pref remainder js := by
  intro js
  induction js with
  | nil =>
    intro best b hb
    rw [joinerLoop_nil] at hb
    exact Or.inl hb
  | cons j js ih =>
    intro best b hb
    cases hstrip : stripJoiner j remainder with
    | none =>
      rw [joinerLoop_cons_none hstrip] at hb
      rw [candsJoiner_cons_none hstrip]
      exact ih best b hb
    | some rest =>
      rw [joinerLoop_cons_some hstrip] at hb
      rw [candsJoiner_cons_some hstrip]
      by_cases hre : rest = []
      · rw [if_pos hre] at hb ⊢
        exact ih best b hb
      · rw [if_neg hre] at hb ⊢
        by_cases hrw : rest ∈ words
        · rw [if_pos hrw] at hb ⊢
          rcases ih (updateBest best [pref, rest]) b hb with h | h
          · rcases updateBest_eq_some h with h1 | h1
            · exact Or.inr (h1 ▸ List.mem_cons_self _ _)
            · exact Or.inl h1
          · exact Or.inr (List.mem_cons_of_mem _ h)
        · rw [if_neg hrw] at hb ⊢
          cases hrec : recur rest with
          | none =>
            simp only [hrec] at hb
            rcases ih best b hb with h | h
            · exact Or.inl h
            · exact Or.inr (List.mem_append_right _ h)
          | some sub =>
            simp only [hrec] at hb
            by_cases hse : sub = []
            · rw [if_pos hse] at hb
              rcases ih best b hb with h | h
              · exact Or.inl h
              · exact Or.inr (List.mem_append_right _ h)
            · rw [if_neg hse] at hb
              rcases ih (updateBest best (pref :: sub)) b hb with h | h
              · rcases updateBest_eq_some h with h1 | h1
                · refine Or.inr (List.mem_append_left _ ?_)
                  rw [h1]
                  exact List.mem_map.mpr ⟨sub, hrecmem rest sub hrec, rfl⟩
                · exact Or.inl h1
              · exact Or.inr (List.mem_append_right _ h)

theorem indexLoop_mem {words : List Word} {recur : Word → Option (List Word)}
    {recurC : Word → List (List Word)} {w : Word}
    (hrecmem : ∀ r s, recur r = some s → s ∈ recurC r) :
    ∀ (idxs : List Nat) (best : Option (List Word)) (b : List Word),
      indexLoop words recur w idxs best = some b →
      best = some b ∨ b ∈ candsIdx words recurC w idxs := by
  intro idxs
  induction idxs with
  | nil =>
    intro best b hb
    rw [indexLoop_nil] at hb
    exact Or.inl hb
  | cons i is ih =>
    intro best b hb
    by_cases hmem : w.take i ∈ words
    · rw [indexLoop_cons_mem hmem] at hb
      rw [candsIdx_cons, if_pos hmem]
      by_cases h2 : hasLen2 (joinerLoop words recur (w.take i) (w.drop i) _JOINERS best) = true
      · rw [if_pos h2] at hb
        rcases joinerLoop_mem hrecmem _JOINERS best b hb with h | h
        · exact Or.inl h
        · exact Or.inr (List.mem_append_left _ h)
      · rw [if_neg h2] at hb
        rcases ih (joinerLoop words recur (w.take i) (w.drop i) _JOINERS best) b hb with h | h
        · rcases joinerLoop_mem hrecmem _JOINERS best b h with h1 | h1
          · exact Or.inl h1
          · exact Or.inr (List.mem_append_left _ h1)
        · exact Or.inr (List.mem_append_right _ h)
    · rw [indexLoop_cons_notMem hmem] at hb
      rw [candsIdx_cons, if_neg hmem]
      rcases ih best b hb with h | h
      · exact Or.inl h
      · exact Or.inr (List.mem_append_right _ h)

/-- Membership: what the bounded search returns is a discoverable candidate. -/
theorem tryRec_mem (words : List Word) :
    ∀ (fuel : Nat) (w : Word) (ps : List Word), tryRec words fuel w = some ps →
      ps ∈ allCands words fuel w := by
  intro fuel
  induction fuel with
  | zero => intro w ps h; cases h
  | succ n ih =>
    intro w ps h
    by_cases hlen : w.length < _min_part_len * 2
    · rw [tryRec_succ, if_pos hlen] at h
      rw [allCands_succ, if_pos hlen]
      by_cases hw : w ∈ words
      · rw [if_pos hw] at h
        rw [if_pos hw, ← Option.some.inj h]
        exact List.mem_singleton_self [w]
      · rw [if_neg hw] at h
        exact Option.noConfusion h
    · rw [tryRec_succ, if_neg hlen] at h
      rw [allCands_succ, if_neg hlen]
      rcases indexLoop_mem (fun r s hs => ih r s hs) _ none ps h with h1 | h1
      · exact Option.noConfusion h1
      · exact h1

/-- A hit of the first-two-part scan is a 2-element list. -/
theorem firstTwoJoiner_length {words : List Word} {pref remainder : Word} :
    ∀ (js : List Word) (c : List Word),
      firstTwoJoiner words pref remainder js = some c → c.length = 2 := by
  intro js
  induction js with
  | nil => intro c hc; exact Option.noConfusion hc
  | cons j js ih =>
    intro c hc
    cases hstrip : stripJoiner j remainder with
    | none =>
      rw [firstTwoJoiner_cons_none hstrip] at hc
      exact ih c hc
    | some rest =>
      rw [firstTwoJoiner_cons_some hstrip] at hc
      by_cases hre : rest = []
      · rw [if_pos hre] at hc
        exact ih c hc
      · rw [if_neg hre] at hc
        by_cases hrw : rest ∈ words
        · rw [if_pos hrw] at hc
          rw [← Option.some.inj hc]
          rfl
        · rw [if_neg hrw] at hc
          exact ih c hc

/-- If the joiner scan has a first direct 2-part candidate and the incoming
`best` is empty or has at least 3 parts, the joiner loop returns exactly that
candidate. -/
theorem joinerLoop_firstTwo_some {words : List Word} {recur : Word → Option (List Word)}
    {pref remainder : Word}
    (hrec2 : ∀ r s, recur r = some s → r ∉ words → 2 ≤ s.length) :
    ∀ (js : List Word) (best : Option (List Word)) (c : List Word),
      (best = none ∨ ∃ b0, best = some b0 ∧ 3 ≤ b0.length) →
      firstTwoJoiner words pref remainder js = some c →
      joinerLoop words recur pref remainder js best = some c := by
  intro js
  induction js with
  | nil => intro best c hbest hc; exact Option.noConfusion hc
  | cons j js ih =>
    intro best c hbest hc
    cases hstrip : stripJoiner j remainder with
    | none =>
      rw [firstTwoJoiner_cons_none hstrip] at hc
      rw [joinerLoop_cons_none hstrip]
      exact ih best c hbest hc
    | some rest =>
      rw [firstTwoJoiner_cons_some hstrip] at hc
      rw [joinerLoop_cons_some hstrip]
      by_cases hre : rest = []
      · rw [if_pos hre] at hc ⊢
        exact ih best c hbest hc
      · rw [if_neg hre] at hc ⊢
        by_cases hrw : rest ∈ words
        · rw [if_pos hrw] at hc ⊢
          have hceq : c = [pref, rest] := (Option.some.inj hc).symm
          subst hceq
          have hupd : updateBest best [pref, rest] = some [pref, rest] := by
            rcases hbest with h | ⟨b0, hb0, h3⟩
            · rw [h]; rfl
            · rw [hb0]
              have hlt : ([pref, rest] : List Word).length < b0.length := by
                simp only [List.length_cons, List.length_nil]
                omega
              simp only [updateBest]
              rw [if_pos hlt]
          rw [hupd]
          exact joinerLoop_keeps_two (show ([pref, rest] : List Word).length = 2 from rfl)
            hrec2 js
        · rw [if_neg hrw] at hc ⊢
          cases hrec : recur rest with
          | none => exact ih best c hbest hc
          | some sub =>
            show (if sub = [] then joinerLoop words recur pref remainder js best
              else joinerLoop words recur pref remainder js
                (updateBest best (pref :: sub))) = some c
            by_cases hse : sub = []
            · rw [if_pos hse]
              exact ih best c hbest hc
            · rw [if_neg hse]
              have h2 : 2 ≤ sub.length := hrec2 rest sub hrec hrw
              have hinv : ∃ b1, updateBest best (pref :: sub) = some b1 ∧ 3 ≤ b1.length := by
                rcases hbest with h | ⟨b0, hb0, h3⟩
                · rw [h]
                  exact ⟨pref :: sub, rfl, by simp only [List.length_cons]; omega⟩
                · rw [hb0]
                  simp only [updateBest]
                  by_cases hlt : (pref :: sub).length < b0.length
                  · rw [if_pos hlt]
                    exact ⟨pref :: sub, rfl, by simp only [List.length_cons]; omega⟩
                  · rw [if_neg hlt]
                    exact ⟨b0, rfl, h3⟩
              obtain ⟨b1, hb1, h31⟩ := hinv
              rw [hb1]
              exact ih (some b1) c (Or.inr ⟨b1, rfl, h31⟩) hc

/-- If the joiner scan has no direct 2-part candidate and the incoming `best`
is empty or has at least 3 parts, the joiner loop cannot return a 2-part
list. -/
theorem joinerLoop_firstTwo_none {words : List Word} {recur : Word → Option (List Word)}
    {pref remainder : Word}
    (hrec2 : ∀ r s, recur r = some s → r ∉ words → 2 ≤ s.length) :
    ∀ (js : List Word) (best : Option (List Word)),
      (best = none ∨ ∃ b0, best = some b0 ∧ 3 ≤ b0.length) →
      firstTwoJoiner words pref remainder js = none →
      (joinerLoop words recur pref remainder js best = none ∨
        ∃ b, joinerLoop words recur pref remainder js best = some b ∧ 3 ≤ b.length) := by
  intro js
  induction js with
  | nil =>
    intro best hbest hc
    rw [joinerLoop_nil]
    rcases hbest with h | ⟨b0, hb0, h3⟩
    · exact Or.inl h
    · exact Or.inr ⟨b0, hb0, h3⟩
  | cons j js ih =>
    intro best hbest hc
    cases hstrip : stripJoiner j remainder with
    | none =>
      rw [firstTwoJoiner_cons_none hstrip] at hc
      rw [joinerLoop_cons_none hstrip]
      exact ih best hbest hc
    | some rest =>
      rw [firstTwoJoiner_cons_some hstrip] at hc
      rw [joinerLoop_cons_some hstrip]
      by_cases hre : rest = []
      · rw [if_pos hre] at hc ⊢
        exact ih best hbest hc
      · rw [if_neg hre] at hc ⊢
        by_cases hrw : rest ∈ words
        · rw [if_pos hrw] at hc
          exact Option.noConfusion hc
        · rw [if_neg hrw] at hc ⊢
          cases hrec : recur rest with
          | none => exact ih best hbest hc
          | some sub =>
            by_cases hse : sub = []
            · have hstep : (match some sub with
                  | none => joinerLoop words recur pref remainder js best
                  | some sub =>
                    if sub = [] then joinerLoop words recur pref remainder js best
                    else joinerLoop words recur pref remainder js
                      (updateBest best (pref :: sub))) =
                  joinerLoop words recur pref remainder js best := if_pos hse
              rw [hstep]
              exact ih best hbest hc
            · have h2 : 2 ≤ sub.length := hrec2 rest sub hrec hrw
              have hinv : ∃ b1, updateBest best (pref :: sub) = some b1 ∧ 3 ≤ b1.length := by
                rcases hbest with h | ⟨b0, hb0, h3⟩
                · rw [h]
                  exact ⟨pref :: sub, rfl, by simp only [List.length_cons]; omega⟩
                · rw [hb0]
                  simp only [updateBest]
                  by_cases hlt : (pref :: sub).length < b0.length
                  · rw [if_pos hlt]
                    exact ⟨pref :: sub, rfl, by simp only [List.length_cons]; omega⟩
                  · rw [if_neg hlt]
                    exact ⟨b0, rfl, h3⟩
              obtain ⟨b1, hb1, h31⟩ := hinv
              have hstep : (match some sub with
                  | none => joinerLoop words recur pref remainder js best
                  | some sub =>
                    if sub = [] then joinerLoop words recur pref remainder js best
                    else joinerLoop words recur pref remainder js
                      (updateBest best (pref :: sub))) =
                  joinerLoop words recur pref remainder js (some b1) :=
                (if_neg hse).trans (by rw [hb1])
              rw [hstep]
              exact ih (some b1) (Or.inr ⟨b1, rfl, h31⟩) hc

/-- If the index loop returns a 2-part list, it is the first direct 2-part
candidate in the longest-prefix-first scan order. -/
theorem indexLoop_firstTwo {words : List Word} {recur : Word → Option (List Word)} {w : Word}
    (hrec2 : ∀ r s, recur r = some s → r ∉ words → 2 ≤ s.length) :
    ∀ (idxs : List Nat) (best : Option (List Word)),
      (best = none ∨ ∃ b0, best = some b0 ∧ 3 ≤ b0.length) →
      ∀ ps, indexLoop words recur w idxs best = some ps → ps.length = 2 →
        firstTwoIdx words w idxs = some ps := by
  intro idxs
  induction idxs with
  | nil =>
    intro best hbest ps hps hlen
    rw [indexLoop_nil] at hps
    rcases hbest with h | ⟨b0, hb0, h3⟩
    · rw [h] at hps
      exact Option.noConfusion hps
    · rw [hb0] at hps
      rw [Option.some.inj hps] at h3
      omega
  | cons i is ih =>
    intro best hbest ps hps hlen
    by_cases hmem : w.take i ∈ words
    · rw [indexLoop_cons_mem hmem] at hps
      rw [firstTwoIdx_cons_mem hmem]
      cases hf : firstTwoJoiner words (w.take i) (w.drop i) _JOINERS with
      | some c =>
        have hbl : joinerLoop words recur (w.take i) (w.drop i) _JOINERS best = some c :=
          joinerLoop_firstTwo_some hrec2 _JOINERS best c hbest hf
        have hc2 : c.length = 2 := firstTwoJoiner_length _JOINERS c hf
        have h2 : hasLen2 (joinerLoop words recur (w.take i) (w.drop i) _JOINERS best)
            = true := hasLen2_iff.mpr ⟨c, hbl, hc2⟩
        rw [if_pos h2, hbl] at hps
        exact hps
      | none =>
        have hbl := joinerLoop_firstTwo_none hrec2 _JOINERS best hbest hf
        have hne2 : ¬ hasLen2 (joinerLoop words recur (w.take i) (w.drop i) _JOINERS best)
            = true := by
          intro habs
          obtain ⟨b, hb, hb2⟩ := hasLen2_iff.mp habs
          rcases hbl with h | ⟨b1, hb1, h31⟩
          · rw [h] at hb
            exact Option.noConfusion hb
          · rw [hb1] at hb
            rw [Option.some.inj hb] at h31
            omega
        rw [if_neg hne2] at hps
        exact ih (joinerLoop words recur (w.take i) (w.drop i) _JOINERS best) hbl ps hps hlen
    · rw [indexLoop_cons_notMem hmem] at hps
      rw [firstTwoIdx_cons_notMem hmem]
      exact ih best hbest ps hps hlen

/-- Tie-break: a returned 2-part decomposition is the one found first by the
longest-prefix-downward scan with joiners in priority order. -/
theorem tryRec_firstTwo (words : List Word) :
    ∀ (fuel : Nat) (w : Word) (ps : List Word), tryRec words fuel w = some ps →
      ps.length = 2 → firstTwo words w = some ps := by
  intro fuel
  cases fuel with
  | zero =>
    intro w ps h hlen
    exact Option.noConfusion h
  | succ n =>
    intro w ps h hlen
    by_cases hl : w.length < _min_part_len * 2
    · rw [tryRec_succ, if_pos hl] at h
      by_cases hw : w ∈ words
      · rw [if_pos hw] at h
        rw [← Option.some.inj h] at hlen
        simp at hlen
      · rw [if_neg hw] at h
        exact Option.noConfusion h
    · rw [tryRec_succ, if_neg hl] at h
      exact indexLoop_firstTwo (fun r s hs hr => tryRec_notMem_length hs hr)
        _ none (Or.inl rfl) ps h hlen

/-- C3: when `split` reports a compound, the returned parts list is itself a
candidate decomposition discoverable by the bounded search, has the fewest
parts among all discoverable candidates, and, when that minimum is 2, it is
exactly the 2-part decomposition found first when scanning split points from
the longest prefix downward (which is what the immediate return on a 2-part
best implements). -/
theorem c3_theorem (words : List Word) (word : Word)
    (h : (split words word).is_compound = true) :
    (split words word).parts ∈ allCands words 6 (pyLower word) ∧
    (∀ c ∈ allCands words 6 (pyLower word),
      (split words word).parts.length ≤ c.length) ∧
    ((split words word).parts.length = 2 →
      firstTwo words (pyLower word) = some (split words word).parts) := by
  rw [split_eq] at h ⊢
  by_cases hlen : word.length < 2
  · rw [if_pos hlen] at h
    exact Bool.noConfusion h
  · rw [if_neg hlen] at h ⊢
    cases htr : tryRec words 6 (pyLower word) with
    | none =>
      rw [htr] at h
      exact Bool.noConfusion h
    | some ps =>
      rw [htr] at h
      have h2 : (if ps.length > 1 then { word := word, parts := ps, is_compound := true }
          else ({ word := word, parts := [word], is_compound := false } :
            CompoundSplit)).is_compound = true := h
      by_cases hps : ps.length > 1
      · have hparts : (match some ps with
            | some parts =>
              if parts.length > 1 then
                ({ word := word, parts := parts, is_compound := true } : CompoundSplit)
              else ({ word := word, parts := [word], is_compound := false } : CompoundSplit)
            | none => ({ word := word, parts := [word], is_compound := false } :
              CompoundSplit)).parts = ps := by
          show (if ps.length > 1 then { word := word, parts := ps, is_compound := true }
            else ({ word := word, parts := [word], is_compound := false } :
              CompoundSplit)).parts = ps
          rw [if_pos hps]
        rw [hparts]
        refine ⟨tryRec_mem words 6 (pyLower word) ps htr, ?_, ?_⟩
        · intro c hc
          obtain ⟨ps', hps', hle⟩ := tryRec_min words 6 (pyLower word) c hc
          rw [htr] at hps'
          rw [Option.some.inj hps']
          exact hle
        · intro hlen2
          exact tryRec_firstTwo words 6 (pyLower word) ps htr hlen2
      · rw [if_neg hps] at h2
        exact Bool.noConfusion h2

/-- C3 witness. -/
theorem c3_witness :
    (split ["sol".toList, "stol".toList] "solstol".toList).is_compound = true ∧
    ((split ["sol".toList, "stol".toList] "solstol".toList).parts ∈
        allCands ["sol".toList, "stol".toList] 6 (pyLower "solstol".toList) ∧
      (∀ c ∈ allCands ["sol".toList, "stol".toList] 6 (pyLower "solstol".toList),
        (split ["sol".toList, "stol".toList] "solstol".toList).parts.length ≤ c.length) ∧
      ((split ["sol".toList, "stol".toList] "solstol".toList).parts.length = 2 →
        firstTwo ["sol".toList, "stol".toList] (pyLower "solstol".toList) =
          some (split ["sol".toList, "stol".toList] "solstol".toList).parts)) := by
  have h : (split ["sol".toList, "stol".toList] "solstol".toList).is_compound = true := by
    rw [split_eq]; decide
  exact ⟨h, c3_theorem ["sol".toList, "stol".toList] "solstol".toList h⟩

end Svlang
